import Mathlib

/-!
Verification development for the translation pipeline of a media-cataloging
desktop tool.  The Python sources under `src/translator/` are shallowly
embedded here:

* text is modelled as `List Char` (ASCII fragment of Python's str; Python's
  unicode-aware `\s` / `str.lower` are modelled on their ASCII core);
* the persistent translation cache (`translation_cache.py`) is a finite
  association list from derived keys to timestamped entries; the SHA-256 hex
  digest used by `_make_key` is modelled by the normalized text itself
  (the digest is injective up to hash collisions, so key equality coincides
  with equality of `(target_lang, normalized_text)`);
* the per-backend in-memory LRU part caches (an `OrderedDict` in
  `translator.py`) are association lists ordered from least- to
  most-recently used;
* translation backends are values of a capability record whose methods
  return `Except Unit` — a `.error` result models a raised exception;
* wall-clock timestamps are integers, passed explicitly.
-/

/-- Text is a list of characters (ASCII core of Python `str`). -/
abbrev Str := List Char

/-- Python `\s` on its ASCII core: space, tab, newline, carriage return,
vertical tab, form feed.  Used by `str.strip()` and the `\s+` regex in
`_normalize_text`. -/
def isWsChar (c : Char) : Bool :=
  c.toNat = 32 || c.toNat = 9 || c.toNat = 10 || c.toNat = 13 ||
    c.toNat = 11 || c.toNat = 12

/-- The quote characters stripped by the surrounding-quote regex of
`_normalize_text`: double quote (34), single quote (39), backtick (96). -/
def isQuoteChar (c : Char) : Bool :=
  c.toNat = 34 || c.toNat = 39 || c.toNat = 96

/-- Python `str.lower()` on the ASCII core: uppercase A–Z map to a–z, all
other characters are unchanged. -/
def toLowerCh (c : Char) : Char :=
  if 65 ≤ c.toNat ∧ c.toNat ≤ 90 then Char.ofNat (c.toNat + 32) else c

/-- Drop the longest suffix of characters satisfying `p` (the mirror image
of `List.dropWhile`); models trailing-side `str.strip()` and the trailing
alternative of the quote-stripping regex. -/
def rdropWhileP (p : Char → Bool) : Str → Str
  | [] => []
  | c :: cs =>
    match rdropWhileP p cs with
    | [] => if p c then [] else [c]
    | d :: ds => c :: d :: ds

/-- Python `str.strip()`: drop leading and trailing whitespace. -/
def pyStrip (t : Str) : Str :=
  rdropWhileP isWsChar (List.dropWhile isWsChar t)

/-- The quote-stripping substitution of `_normalize_text`: its regex
removes every leading and every trailing quote character (note: one or more
occurrences at each end, not a single layer).  The two regex alternatives
match disjoint ends, except on an all-quote string where both orders give
the empty string, so sequential left-then-right removal is equivalent. -/
def stripQuotes (t : Str) : Str :=
  rdropWhileP isQuoteChar (List.dropWhile isQuoteChar t)

/-- State-passing core of `re.sub(r"\s+", " ", s)`: the flag records whether
the previous character was whitespace (in which case further whitespace is
dropped rather than emitting another space). -/
def collapseGo : Bool → Str → Str
  | _, [] => []
  | b, c :: cs =>
    if isWsChar c then
      if b then collapseGo true cs else ' ' :: collapseGo true cs
    else
      c :: collapseGo false cs

/-- `re.sub(r"\s+", " ", s)`: collapse every whitespace run to one space. -/
def collapseWs (t : Str) : Str := collapseGo false t

/-- `translation_cache._normalize_text`: empty text maps to the empty
string; otherwise strip, remove surrounding quote characters, collapse
whitespace runs, and lowercase when `translator_cache_normalize_lower` is
configured (its default is `True`). -/
def normalize_text (lower : Bool) (t : Str) : Str :=
  if t = [] then []
  else
    let s := pyStrip t
    let s := stripQuotes s
    let s := collapseWs s
    if lower then s.map toLowerCh else s

/-- `translation_cache._make_key`: the stored key is
`f"{target_lang}::{sha256(normalized).hexdigest()}"`; the digest is
modelled by the normalized text (injective modulo hash collisions), so a
key is the pair of target language and normalized text. -/
def make_key (lower : Bool) (text target_lang : Str) : Str × Str :=
  (target_lang, normalize_text lower text)

/-- A persistent-cache entry `{'ts': …, 'value': …}`. -/
structure CacheEntry where
  ts : Int
  value : Str
deriving DecidableEq, Repr

/-- The persistent store: the JSON object of `translation_cache.json`,
as an association list from derived keys to entries. -/
abbrev CacheStore := List ((Str × Str) × CacheEntry)

/-- Dictionary lookup `data.get(key)`. -/
def storeLookup (key : Str × Str) : CacheStore → Option CacheEntry
  | [] => none
  | (k, e) :: rest => if k = key then some e else storeLookup key rest

/-- Dictionary update `data[key] = entry`: replace in place when the key is
present, append otherwise. -/
def storeSet (key : Str × Str) (e : CacheEntry) : CacheStore → CacheStore
  | [] => [(key, e)]
  | (k, e0) :: rest =>
    if k = key then (k, e) :: rest else (k, e0) :: storeSet key e rest

/-- Dictionary removal `data.pop(key, None)`. -/
def storeErase (key : Str × Str) : CacheStore → CacheStore
  | [] => []
  | (k, e0) :: rest =>
    if k = key then rest else (k, e0) :: storeErase key rest

/-- `translation_cache.get`: on a disabled cache report a miss; otherwise
derive the key, look it up, and on a hit check the TTL (a positive
configured `translator_cache_ttl_seconds` and an entry strictly older than
it make the hit expire: the entry is dropped from the store and a miss is
reported).  Returns the reported value together with the store left on
disk. -/
def translation_cache_get (enabled lower : Bool) (ttl now : Int)
    (store : CacheStore) (text target_lang : Str) : Option Str × CacheStore :=
  if ¬enabled then (none, store)
  else
    let key := make_key lower text target_lang
    match storeLookup key store with
    | none => (none, store)
    | some e =>
      if ttl > 0 ∧ now - e.ts > ttl then (none, storeErase key store)
      else (some e.value, store)

/-- `translation_cache.set`: a no-op when the cache is disabled, otherwise
store `{'ts': now, 'value': value}` under the derived key. -/
def translation_cache_set (enabled lower : Bool) (now : Int)
    (store : CacheStore) (text target_lang value : Str) : CacheStore :=
  if ¬enabled then store
  else storeSet (make_key lower text target_lang) ⟨now, value⟩ store

/-- A per-backend in-memory part cache (`_part_cache : OrderedDict`),
ordered least-recently-used first. -/
abbrev PartCache := List (Str × Str)

/-- The keys currently held by a part cache. -/
def pcKeys (c : PartCache) : List Str := c.map Prod.fst

/-- Association lookup in a part cache. -/
def pcLookup (k : Str) : PartCache → Option Str
  | [] => none
  | (k0, v) :: rest => if k0 = k then some v else pcLookup k rest

/-- Remove the (first) binding of `k`; OrderedDict keys are unique. -/
def pcErase (k : Str) : PartCache → PartCache
  | [] => []
  | (k0, v) :: rest => if k0 = k then rest else (k0, v) :: pcErase k rest

/-- `M2MTranslator._cache_get` (and the identical
`AventIQTranslator._cache_get`): on a hit `move_to_end` refreshes the
entry's recency and its value is returned; a miss leaves the cache
unchanged.  `LocalTranslator.translate_batch` reads its part cache through
a different, non-refreshing path, modelled by `local_part_cache_hit`. -/
def part_cache_get (cache : PartCache) (k : Str) : Option Str × PartCache :=
  match pcLookup k cache with
  | none => (none, cache)
  | some v => (some v, pcErase k cache ++ [(k, v)])

/-- The cache-hit path inside `LocalTranslator.translate_batch`
(`if p in self._part_cache:` followed by a plain read of
`self._part_cache[p]`): unlike `M2MTranslator._cache_get` there is no
`move_to_end`, so a hit does not refresh the entry's recency and the cache
is left unchanged. -/
def local_part_cache_hit (cache : PartCache) (k : Str) :
    Option Str × PartCache :=
  (pcLookup k cache, cache)

/-- `M2MTranslator._cache_set` (the same logic appears as `cache_set` in
`LocalTranslator.translate_batch`): an existing key is moved to the end and
overwritten; a new key is appended and, when the size then exceeds the
capacity, `popitem(last=False)` evicts the least-recently-used head. -/
def part_cache_set (cap : Nat) (cache : PartCache) (k v : Str) : PartCache :=
  if (pcLookup k cache).isSome then pcErase k cache ++ [(k, v)]
  else if (cache ++ [(k, v)]).length > cap then (cache ++ [(k, v)]).tail
  else cache ++ [(k, v)]

/-- A translation backend's capability interface; a `.error` result models
an exception raised by `translate` / `translate_batch`. -/
structure Backend where
  translate : Str → Except Unit Str
  translateBatch : List Str → Except Unit (List Str)

/-- `translator.translator_translate`: the whole body runs inside
`try: … except: return text`, so a raising backend degrades to returning
the input text.  Backend selection and the debug-trace writes are
themselves exception-guarded in the source, so the only observable outcome
is the backend's answer or the fallback. -/
def translator_translate (tr : Backend) (text : Str) : Str :=
  match tr.translate text with
  | .ok res => res
  | .error _ => text

/-- `translator.translator_translate_batch`: on any exception the original
texts are returned in order (`return [t for t in (texts or [])]`). -/
def translator_translate_batch (tr : Backend) (texts : List Str) : List Str :=
  match tr.translateBatch texts with
  | .ok res => res
  | .error _ => texts

/-- `translator_translate` with the persistent store threaded through
explicitly.  The source facade performs no `translation_cache` call
(neither `get` before translating nor `set` afterwards), so the store
passes through untouched; making the store a parameter lets that
(non-)interaction be stated and proved. -/
def translator_translate_with_store (tr : Backend) (store : CacheStore)
    (text : Str) : Str × CacheStore :=
  (translator_translate tr text, store)

/-- Modelled from the spec (§4.6 `translate_one`), for comparison with the
source facade: normalize-and-look-up in the persistent cache; on a hit
return the cached value unless it is textually identical to the input (then
retranslate); on a miss or rejected hit translate and write through. -/
def translate_one_spec (tr : Backend) (lower : Bool) (ttl now : Int)
    (store : CacheStore) (text target_lang : Str) : Str × CacheStore :=
  match translation_cache_get true lower ttl now store text target_lang with
  | (some v, store') =>
    if v = text then
      let res := translator_translate tr text
      (res, translation_cache_set true lower now store' text target_lang res)
    else (v, store')
  | (none, store') =>
    let res := translator_translate tr text
    (res, translation_cache_set true lower now store' text target_lang res)

/-- The outcome of `translator.get_translator`: which engine the selector
adopted.  `noop` is the final-fallback `NoOpTranslator`. -/
inductive BackendChoice where
  | deepl
  | m2m100
  | aventiq
  | localMarian
  | noop
deriving DecidableEq, Repr

/-- The selector-relevant configuration and environment:
`translator_backend` (an explicit name or the string auto), the configured
DeepL key (construction of `DeepLTranslator` and its smoke test cannot
raise, so a non-empty key is exactly availability), and whether each local
backend's `ensure_loaded` / `ensure_model_loaded` probe succeeds. -/
structure SelEnv where
  backend : String
  deepl_api_key : String
  m2m_ok : Bool
  aventiq_ok : Bool
  local_ok : Bool

/-- One iteration of the strategy loop in `get_translator`: `none` models
the `continue` taken when the strategy is skipped or its construction
raises. -/
def tryStrategy (env : SelEnv) (strat : String) : Option BackendChoice :=
  if strat = "deepl" then
    if env.deepl_api_key ≠ "" then some .deepl else none
  else if strat = "m2m100" ∨ strat = "m2m" then
    if env.m2m_ok then some .m2m100 else none
  else if strat = "aventiq" then
    if env.aventiq_ok then some .aventiq else none
  else if strat = "local" ∨ strat = "marian" then
    if env.local_ok then some .localMarian else none
  else none

/-- The priority list built by `get_translator`: for auto, DeepL is tried
only when a key is configured, then m2m100, aventiq and the local Marian
model; an explicit request tries exactly the requested name. -/
def strategyOrder (env : SelEnv) : List String :=
  if env.backend = "auto" then
    (if env.deepl_api_key ≠ "" then ["deepl"] else [])
      ++ ["m2m100", "aventiq", "local"]
  else [env.backend]

/-- `translator.get_translator`: adopt the first strategy that constructs,
otherwise fall back to the no-op backend.  Every construction attempt is
`try`-guarded in the source, so the function is total. -/
def get_translator (env : SelEnv) : BackendChoice :=
  match (strategyOrder env).findSome? (tryStrategy env) with
  | some b => b
  | none => .noop

/-- `NoOpTranslator.translate`: `return text or ""`, which on strings is
the identity (the empty string maps to itself). -/
def noop_translate (text : Str) : Str := text

/-- `NoOpTranslator.translate_batch`: `return [t for t in (texts or [])]`. -/
def noop_translate_batch (texts : List Str) : List Str := texts

/-- `LocalTranslator.translate`, blank guard made explicit: the body opens
with `if not text or not text.strip(): return ""`; the remainder (model
probing, tokenization, generation) is abstracted as `rest`, which the
guard precedes unconditionally. -/
def localTranslator_translate (rest : Str → Str) (text : Str) : Str :=
  if text = [] ∨ pyStrip text = [] then [] else rest text

/-- `DeepLTranslator.translate`: the same leading blank guard
`if not text or not text.strip(): return ""` before the HTTP request. -/
def deepLTranslator_translate (rest : Str → Str) (text : Str) : Str :=
  if text = [] ∨ pyStrip text = [] then [] else rest text

/-- `M2MTranslator.translate`: after the type check (strings only in this
model) the same blank guard precedes model loading and generation. -/
def m2mTranslator_translate (rest : Str → Str) (text : Str) : Str :=
  if text = [] ∨ pyStrip text = [] then [] else rest text

/-- `AventIQTranslator.translate`: `stripped = text.strip()`; blank input
returns the empty string before the pipeline is consulted. -/
def aventIQTranslator_translate (rest : Str → Str) (text : Str) : Str :=
  if pyStrip text = [] then [] else rest text

/-- Sentence-ending punctuation used by `_split_text_by_token_limit`'s
sentence regex: period, question and exclamation marks plus their CJK
forms. -/
def isSentPunct (c : Char) : Bool :=
  c = '.' || c = '?' || c = '!' || c = '。' || c = '！' || c = '？'

/-- Does the reversed accumulator start with sentence punctuation (i.e.,
was the previously consumed character sentence-ending)? -/
def headPunct : Str → Bool
  | [] => false
  | c :: _ => isSentPunct c

/-- The sentence split `re.split` with a lookbehind for sentence
punctuation followed by whitespace: `cur` holds the current piece in
reverse; the `skipping` mode consumes the whitespace run that separates
sentences. -/
def sentSplitGo : Bool → Str → Str → List Str
  | false, cur, [] => [cur.reverse]
  | true, _, [] => [[]]
  | false, cur, c :: rest =>
    if isWsChar c ∧ headPunct cur then cur.reverse :: sentSplitGo true [] rest
    else sentSplitGo false (c :: cur) rest
  | true, _, c :: rest =>
    if isWsChar c then sentSplitGo true [] rest
    else sentSplitGo false [c] rest

/-- `re.split` on sentence boundaries, as used by the segmenter. -/
def sentSplit (t : Str) : List Str := sentSplitGo false [] t

/-- Fixed-size character slicing `s[i:i+approx]` used by the segmenter's
pathological-sentence fallback; the slice width is `sz + 1` so the
recursion is well-founded (the source only slices with widths of at least
200). -/
def charSlices (sz : Nat) : Str → List Str
  | [] => []
  | c :: cs => (c :: cs).take (sz + 1) :: charSlices sz ((c :: cs).drop (sz + 1))
termination_by s => s.length
decreasing_by
  simp only [List.length_drop, List.length_cons]
  omega

/-- The greedy accumulation loop of `_split_text_by_token_limit`.  The
candidate is measured through the tokenizer with `truncation=True` and
`max_length=max_tokens`, so the observed sequence length is the true token
count capped at `max_tokens` — modelled as `min (count candidate)
maxTokens`.  State is `(chunks, current)`. -/
def greedyGo (count : Str → Nat) (maxTokens : Nat) :
    List Str → List Str × Str → List Str × Str
  | [], st => st
  | s :: rest, (chunks, current) =>
    if s = [] then greedyGo count maxTokens rest (chunks, current)
    else
      let candidate :=
        if current = [] then s else pyStrip (current ++ ' ' :: s)
      let seqLen := min (count candidate) maxTokens
      if seqLen ≤ maxTokens then
        greedyGo count maxTokens rest (chunks, candidate)
      else
        let approx := max (maxTokens * 2) 200
        let chunks' := (if current = [] then chunks else chunks ++ [current])
          ++ charSlices (approx - 1) s
        greedyGo count maxTokens rest (chunks', [])

/-- `translator._split_text_by_token_limit` with the backend tokenizer
modelled as the unit-counting function `count` (the quick path measures
with `encode`, i.e. the uncapped count; the greedy loop measures through a
truncating call).  Tokenizer exceptions are not modelled: `count` is
total. -/
def split_text_by_token_limit (count : Str → Nat) (maxTokens : Nat)
    (text : Str) : List Str :=
  if text = [] then [[]]
  else
    let t := pyStrip text
    if count t ≤ maxTokens then [t]
    else
      let sents := sentSplit t
      let (chunks, current) := greedyGo count maxTokens sents ([], [])
      let chunks := if current = [] then chunks else chunks ++ [current]
      if chunks = [] then [t]
      else (chunks.map pyStrip).filter (· ≠ [])

/-- Whitespace-separated word splitting: the word sequence of a text, used
both as a concrete unit-counting function and to state reconstruction. -/
def wordsGo : Str → Str → List Str
  | cur, [] => if cur = [] then [] else [cur.reverse]
  | cur, c :: rest =>
    if isWsChar c then
      if cur = [] then wordsGo [] rest else cur.reverse :: wordsGo [] rest
    else wordsGo (c :: cur) rest

/-- The words of a text. -/
def wordsOf (t : Str) : List Str := wordsGo [] t

/-- A concrete unit counter: one unit per whitespace-separated word. -/
def wordCount (t : Str) : Nat := (wordsOf t).length

/-- A batch-translation oracle: the behaviour of
`translator.translate_batch` on its n-th invocation within one
`run_batched_translation` call; `none` models a raised exception. -/
abbrev BatchOracle := Nat → List Str → Option (List Str)

/-- One failed attempt in the sense of `run_batched_translation`: the
backend raised, or answered with a list of the wrong length. -/
def attemptFails (tb : BatchOracle) (block : List Str) (n : Nat) : Prop :=
  tb n block = none ∨ ∃ l, tb n block = some l ∧ l.length ≠ block.length

/-- The retry loop of `run_batched_translation` for one chunk: up to the
given number of attempts, each consuming one oracle call; a response of the
right length is adopted, anything else (exception or length mismatch)
counts as a failed attempt. Returns the adopted block (if any) and the
updated call counter. -/
def tryAttempts (tb : BatchOracle) (block : List Str) :
    Nat → Nat → Option (List Str) × Nat
  | 0, c => (none, c)
  | n + 1, c =>
    match tb c block with
    | some l =>
      if l.length = block.length then (some l, c + 1)
      else tryAttempts tb block n (c + 1)
    | none => tryAttempts tb block n (c + 1)

/-- Chunk resolution in `run_batched_translation`: the first successful
attempt's response; otherwise the per-item fallback when supplied;
otherwise the chunk's original texts verbatim. -/
def chunkOutcome (tb : BatchOracle) (attempts : Nat)
    (fb : Option (Str → Str)) (block : List Str) (c : Nat) :
    List Str × Nat :=
  match tryAttempts tb block attempts c with
  | (some l, c') => (l, c')
  | (none, c') =>
    match fb with
    | some f => (block.map f, c')
    | none => (block, c')

/-- The chunk loop `for batch_idx in range(batches)` of
`run_batched_translation`: batch `i` covers the slice starting at
`start = i * chunk`; each resolved block is written into its result slots
in order, which (blocks tiling the input) is concatenation. -/
def runChunksIdx (tb : BatchOracle) (attempts chunkSz : Nat)
    (fb : Option (Str → Str)) (texts : List Str) :
    Nat → Nat → Nat → List Str × Nat
  | 0, _, c => ([], c)
  | b + 1, start, c =>
    let block := (texts.drop start).take chunkSz
    let (res, c') := chunkOutcome tb attempts fb block c
    let (rest, c'') := runChunksIdx tb attempts chunkSz fb texts b (start + chunkSz) c'
    (res ++ rest, c'')

/-- `translator_batcher.run_batched_translation`: empty input returns the
empty list; `chunk = max(1, chunk_size or 20)` and
`attempts = max(1, max_attempts or 3)` (a zero argument falls back to the
module default before the clamp); the input is processed in
`ceil(total / chunk)` fixed-size chunks. -/
def run_batched_translation (texts : List Str) (tb : BatchOracle)
    (chunk_size max_attempts : Nat) (fb : Option (Str → Str)) : List Str :=
  if texts = [] then []
  else
    let chunk := max 1 (if chunk_size = 0 then 20 else chunk_size)
    let attempts := max 1 (if max_attempts = 0 then 3 else max_attempts)
    let total := texts.length
    let batches := (total + chunk - 1) / chunk
    (runChunksIdx tb attempts chunk fb texts batches 0 0).1

/-- The claim's description of how one chunk's output slots are filled:
either some attempt succeeded and the slots carry that backend response
(of matching length, with all earlier attempts in the window failed), or
every attempt in a window of `attempts` consecutive calls failed and the
slots carry the per-item fallback (when supplied) or the original texts. -/
def chunkFilledClaim (tb : BatchOracle) (attempts : Nat)
    (fb : Option (Str → Str)) (block out : List Str) : Prop :=
  (∃ c j, j < attempts ∧ (∀ j', j' < j → attemptFails tb block (c + j')) ∧
    tb (c + j) block = some out ∧ out.length = block.length)
  ∨ ((∃ c, ∀ j, j < attempts → attemptFails tb block (c + j)) ∧
      ((∃ f, fb = some f ∧ out = block.map f) ∨ (fb = none ∧ out = block)))

/-! ## Helper lemmas -/

theorem storeLookup_set_self (key : Str × Str) (e : CacheEntry) :
    ∀ s : CacheStore, storeLookup key (storeSet key e s) = some e := by
  intro s
  induction s with
  | nil => simp [storeSet, storeLookup]
  | cons kv rest ih =>
    obtain ⟨k, e0⟩ := kv
    by_cases hk : k = key
    · simp [storeSet, storeLookup, hk]
    · simp [storeSet, storeLookup, hk, ih]

theorem pcLookup_append (k : Str) (l1 l2 : PartCache) :
    pcLookup k (l1 ++ l2) =
      match pcLookup k l1 with
      | some v => some v
      | none => pcLookup k l2 := by
  induction l1 with
  | nil => simp [pcLookup]
  | cons kv rest ih =>
    obtain ⟨k0, v⟩ := kv
    by_cases hk : k0 = k
    · simp [pcLookup, hk]
    · simp [pcLookup, hk, ih]

theorem pcLookup_erase_of_ne (k k' : Str) (hne : k ≠ k') :
    ∀ l : PartCache, pcLookup k (pcErase k' l) = pcLookup k l := by
  intro l
  induction l with
  | nil => simp [pcErase]
  | cons kv rest ih =>
    obtain ⟨k0, v⟩ := kv
    by_cases h0 : k0 = k'
    · subst h0
      simp [pcErase, pcLookup, Ne.symm hne]
    · by_cases h1 : k0 = k
      · subst h1
        simp [pcErase, pcLookup, h0]
      · simp [pcErase, pcLookup, h0, h1, ih]

theorem pcErase_length_of_mem (k : Str) :
    ∀ l : PartCache, (pcLookup k l).isSome →
      (pcErase k l).length + 1 = l.length := by
  intro l
  induction l with
  | nil => simp [pcLookup]
  | cons kv rest ih =>
    obtain ⟨k0, v⟩ := kv
    by_cases hk : k0 = k
    · simp [pcErase, pcLookup, hk]
    · intro hs
      have hs' : (pcLookup k rest).isSome := by
        simpa [pcLookup, hk] using hs
      simp [pcErase, pcLookup, hk, ih hs']

theorem dropWhile_eq_nil_of_all (p : Char → Bool) :
    ∀ t : Str, (∀ c ∈ t, p c) → List.dropWhile p t = [] := by
  intro t
  induction t with
  | nil => intro _; rfl
  | cons c cs ih =>
    intro h
    have hc : p c := h c (List.mem_cons_self c cs)
    rw [List.dropWhile_cons_of_pos hc]
    exact ih fun d hd => h d (List.mem_cons_of_mem c hd)

theorem pyStrip_eq_nil_of_all_ws (t : Str) (h : ∀ c ∈ t, isWsChar c) :
    pyStrip t = [] := by
  unfold pyStrip
  rw [dropWhile_eq_nil_of_all isWsChar t h]
  rfl

theorem pyStrip_nil : pyStrip [] = [] := rfl

/-! ## Claim theorems -/

/-- C1: the facade entry points `translator_translate` and
`translator_translate_batch` are total by construction (every path in the
source is wrapped in `try … except` with a defined fallback), and when the
selected backend raises on every call the single entry point returns the
input text and the batch entry point returns the original input texts in
order. -/
theorem translator_facade_total_fallback (tr : Backend) (text : Str)
    (texts : List Str) :
    ((∀ s, tr.translate s = .error ()) →
      translator_translate tr text = text) ∧
    ((∀ l, tr.translateBatch l = .error ()) →
      translator_translate_batch tr texts = texts) := by
  constructor
  · intro h
    simp [translator_translate, h]
  · intro h
    simp [translator_translate_batch, h]

/-- C1 witness: a backend stub that always raises is absorbed, both entry
points returning their inputs. -/
theorem translator_facade_total_fallback_witness :
    translator_translate ⟨fun _ => .error (), fun _ => .error ()⟩
        ("hola".toList) = "hola".toList ∧
    translator_translate_batch ⟨fun _ => .error (), fun _ => .error ()⟩
        ["a".toList, "b".toList] = ["a".toList, "b".toList] :=
  ⟨(translator_facade_total_fallback ⟨fun _ => .error (), fun _ => .error ()⟩
      ("hola".toList) ["a".toList, "b".toList]).1 (fun _ => rfl),
   (translator_facade_total_fallback ⟨fun _ => .error (), fun _ => .error ()⟩
      ("hola".toList) ["a".toList, "b".toList]).2 (fun _ => rfl)⟩

/-- C4: with the cache enabled, `set` followed immediately by `get` for the
same text and target language returns exactly the stored value, for every
TTL configuration (at the same instant no entry can be expired). -/
theorem cache_set_get_roundtrip (lower : Bool) (ttl now : Int)
    (store : CacheStore) (text lang value : Str) :
    (translation_cache_get true lower ttl now
        (translation_cache_set true lower now store text lang value)
        text lang).1 = some value := by
  unfold translation_cache_get translation_cache_set
  simp [storeLookup_set_self]
  split
  next h => exact absurd h (by omega)
  next h => rfl

/-- C6: with the cache enabled and a positive TTL, a hit on an entry whose
stored timestamp is older than the TTL is reported as a miss and the
expired entry is removed from the store. -/
theorem cache_get_ttl_expiry (lower : Bool) (ttl now ts : Int)
    (store : CacheStore) (text lang v : Str)
    (hlook : storeLookup (make_key lower text lang) store = some ⟨ts, v⟩)
    (httl : 0 < ttl) (hold : ttl < now - ts) :
    translation_cache_get true lower ttl now store text lang
      = (none, storeErase (make_key lower text lang) store) := by
  unfold translation_cache_get
  simp [hlook]
  omega

/-- C6 witness: a concrete entry written at time 0 is expired and dropped
by a `get` at time 100 under a TTL of 10. -/
theorem cache_get_ttl_expiry_witness :
    translation_cache_get true true 10 100
        (translation_cache_set true true 0 [] ("hi".toList) ("es".toList)
          ("v".toList))
        ("hi".toList) ("es".toList)
      = (none, storeErase (make_key true ("hi".toList) ("es".toList))
          (translation_cache_set true true 0 [] ("hi".toList) ("es".toList)
            ("v".toList))) :=
  cache_get_ttl_expiry true 10 100 0
    (translation_cache_set true true 0 [] ("hi".toList) ("es".toList)
      ("v".toList))
    ("hi".toList) ("es".toList) ("v".toList) (by decide) (by decide)
    (by decide)

/-- C10: for each concrete backend, `translate` on an input consisting only
of whitespace (in particular on the empty string) returns the empty
string before any translation machinery runs, so a non-empty
whitespace-only input never comes back verbatim. -/
theorem backend_translate_blank (r1 r2 r3 r4 : Str → Str) (t : Str)
    (hws : ∀ c ∈ t, isWsChar c) :
    (localTranslator_translate r1 t = [] ∧
     deepLTranslator_translate r2 t = [] ∧
     m2mTranslator_translate r3 t = [] ∧
     aventIQTranslator_translate r4 t = []) ∧
    (t ≠ [] →
      localTranslator_translate r1 t ≠ t ∧
      deepLTranslator_translate r2 t ≠ t ∧
      m2mTranslator_translate r3 t ≠ t ∧
      aventIQTranslator_translate r4 t ≠ t) := by
  have hstrip : pyStrip t = [] := pyStrip_eq_nil_of_all_ws t hws
  have h1 : localTranslator_translate r1 t = [] := by
    simp [localTranslator_translate, hstrip]
  have h2 : deepLTranslator_translate r2 t = [] := by
    simp [deepLTranslator_translate, hstrip]
  have h3 : m2mTranslator_translate r3 t = [] := by
    simp [m2mTranslator_translate, hstrip]
  have h4 : aventIQTranslator_translate r4 t = [] := by
    simp [aventIQTranslator_translate, hstrip]
  refine ⟨⟨h1, h2, h3, h4⟩, fun hne => ?_⟩
  refine ⟨?_, ?_, ?_, ?_⟩ <;> intro heq
  · exact hne (by rw [← heq, h1])
  · exact hne (by rw [← heq, h2])
  · exact hne (by rw [← heq, h3])
  · exact hne (by rw [← heq, h4])

/-- C10 witness: a single-space input maps to the empty string in all four
backends and does not come back verbatim. -/
theorem backend_translate_blank_witness :
    localTranslator_translate id [' '] = [] ∧
    aventIQTranslator_translate id [' '] ≠ [' '] :=
  ⟨(backend_translate_blank id id id id [' '] (by decide)).1.1,
   ((backend_translate_blank id id id id [' '] (by decide)).2
      (by decide)).2.2.2⟩

theorem pcLookup_isSome_append_mid (k v : Str) :
    ∀ l l2 : PartCache, (pcLookup k (l ++ (k, v) :: l2)).isSome := by
  intro l l2
  induction l with
  | nil => simp [pcLookup]
  | cons kv rest ih =>
    obtain ⟨k0, v0⟩ := kv
    by_cases hk : k0 = k
    · simp [pcLookup, hk]
    · simpa [pcLookup, hk] using ih

/-- C3 counterexample: a store holding a fresh cached value for the exact
input, and a backend producing a different answer.  The spec algorithm
(`translate_one_spec`) returns the cached value; the source facade returns
the backend answer and leaves the store untouched, so it neither consults
nor writes the persistent cache. -/
theorem facade_ignores_persistent_cache_cex :
    (translation_cache_get true true 1000 5
        (translation_cache_set true true 0 [] ("hello".toList) ("es".toList)
          ("CACHED".toList))
        ("hello".toList) ("es".toList)).1 = some ("CACHED".toList) ∧
    translator_translate_with_store
        ⟨fun t => .ok (if t = "hello".toList then "X".toList else t),
         fun l => .ok l⟩
        (translation_cache_set true true 0 [] ("hello".toList) ("es".toList)
          ("CACHED".toList))
        ("hello".toList)
      = ("X".toList,
          translation_cache_set true true 0 [] ("hello".toList)
            ("es".toList) ("CACHED".toList)) ∧
    translate_one_spec
        ⟨fun t => .ok (if t = "hello".toList then "X".toList else t),
         fun l => .ok l⟩ true 1000 5
        (translation_cache_set true true 0 [] ("hello".toList) ("es".toList)
          ("CACHED".toList))
        ("hello".toList) ("es".toList)
      = ("CACHED".toList,
          translation_cache_set true true 0 [] ("hello".toList)
            ("es".toList) ("CACHED".toList)) ∧
    ("X".toList : Str) ≠ "CACHED".toList := by
  refine ⟨by decide, by decide, by decide, by decide⟩

/-- C3 amended: the facade's single-text entry point performs no
persistent-cache interaction at all — its result is independent of the
persistent store, it never writes the store, and it equals the backend's
translation (with the input-on-failure fallback). -/
theorem facade_cache_independence (tr : Backend) (store store' : CacheStore)
    (text : Str) :
    (translator_translate_with_store tr store text).1
      = (translator_translate_with_store tr store' text).1 ∧
    (translator_translate_with_store tr store text).2 = store ∧
    (translator_translate_with_store tr store text).1
      = translator_translate tr text :=
  ⟨rfl, rfl, rfl⟩

/-- C7 counterexample, two failure modes.  With capacity 1, the single
entry is refreshed by a `get` hit and is nevertheless evicted by the next
distinct insertion.  And in the part cache of
`LocalTranslator.translate_batch`, whose hit path performs no
`move_to_end`, the least-recently-used entry is read by a hit and still
evicted by the next distinct insertion even at capacity 2. -/
theorem part_cache_protection_cex :
    ((part_cache_get [("k".toList, "v".toList)] ("k".toList)).1
        = some ("v".toList) ∧
      part_cache_set 1 (part_cache_get [("k".toList, "v".toList)]
          ("k".toList)).2 ("j".toList) ("w".toList)
        = [("j".toList, "w".toList)] ∧
      pcLookup ("k".toList)
          (part_cache_set 1 (part_cache_get [("k".toList, "v".toList)]
            ("k".toList)).2 ("j".toList) ("w".toList)) = none) ∧
    ((local_part_cache_hit
          [("k".toList, "v".toList), ("j".toList, "w".toList)]
          ("k".toList)).1 = some ("v".toList) ∧
      (local_part_cache_hit
          [("k".toList, "v".toList), ("j".toList, "w".toList)]
          ("k".toList)).2
        = [("k".toList, "v".toList), ("j".toList, "w".toList)] ∧
      pcLookup ("k".toList)
          (part_cache_set 2
            (local_part_cache_hit
              [("k".toList, "v".toList), ("j".toList, "w".toList)]
              ("k".toList)).2
            ("m".toList) ("x".toList)) = none) := by
  refine ⟨⟨by decide, by decide, by decide⟩,
    by decide, by decide, by decide⟩

/-- C7 amended: insertion keeps every part cache within its capacity, and
inserting a fresh key into a full cache evicts exactly the
least-recently-used entry (the shared `_cache_set` logic).  The
get-refresh protection holds only for the caches read through
`_cache_get` (M2M100, AventIQ) and only for capacity at least 2: an entry
refreshed by such a `get` immediately before the overflowing insertion
survives the eviction.  The part cache of
`LocalTranslator.translate_batch` is read without `move_to_end`, so there
a hit on the least-recently-used entry gives it no protection: the entry
is evicted by the next overflowing insertion at any capacity. -/
theorem part_cache_lru (cap : Nat) (cache rest : PartCache)
    (k knew kacc v v0 w : Str) :
    (cache.length ≤ cap → (part_cache_set cap cache k v).length ≤ cap) ∧
    (cache.length = cap → 1 ≤ cap → pcLookup k cache = none →
      part_cache_set cap cache k v = cache.tail ++ [(k, v)]) ∧
    (2 ≤ cap → cache.length = cap → (pcLookup kacc cache).isSome →
      pcLookup knew cache = none →
      (pcLookup kacc
        (part_cache_set cap (part_cache_get cache kacc).2 knew w)).isSome) ∧
    (pcLookup knew ((kacc, v0) :: rest) = none →
      pcLookup kacc rest = none →
      (local_part_cache_hit ((kacc, v0) :: rest) kacc).1 = some v0 ∧
      pcLookup kacc
        (part_cache_set ((kacc, v0) :: rest).length
          (local_part_cache_hit ((kacc, v0) :: rest) kacc).2 knew w)
        = none) := by
  refine ⟨?_, ?_, ?_, ?_⟩
  · intro hle
    by_cases hk : (pcLookup k cache).isSome
    · unfold part_cache_set
      rw [if_pos hk]
      have hlen := pcErase_length_of_mem k cache hk
      simp only [List.length_append, List.length_cons, List.length_nil]
      omega
    · unfold part_cache_set
      rw [if_neg hk]
      by_cases hov : (cache ++ [(k, v)]).length > cap
      · rw [if_pos hov]
        have ht : ((cache ++ [(k, v)]).tail).length
            = (cache ++ [(k, v)]).length - 1 := by
          simp [List.length_tail]
        simp only [List.length_append, List.length_cons, List.length_nil]
          at ht hov
        omega
      · rw [if_neg hov]
        simp only [List.length_append, List.length_cons, List.length_nil]
          at hov ⊢
        omega
  · intro hlen hcap hnone
    have hk : ¬ (pcLookup k cache).isSome := by simp [hnone]
    unfold part_cache_set
    rw [if_neg hk]
    have hov : (cache ++ [(k, v)]).length > cap := by
      simp [hlen]
    rw [if_pos hov]
    cases cache with
    | nil => simp at hlen; omega
    | cons a as => simp
  · intro hcap hlen hacc hnone
    obtain ⟨vacc, hv⟩ : ∃ v0, pcLookup kacc cache = some v0 := by
      cases hpc : pcLookup kacc cache with
      | none => rw [hpc] at hacc; cases hacc
      | some v0 => exact ⟨v0, rfl⟩
    have hne : knew ≠ kacc := by
      intro h
      rw [h, hv] at hnone
      cases hnone
    unfold part_cache_get
    rw [hv]
    simp only
    have hlook2 : pcLookup knew (pcErase kacc cache ++ [(kacc, vacc)])
        = none := by
      rw [pcLookup_append]
      rw [pcLookup_erase_of_ne knew kacc hne, hnone]
      simp [pcLookup, Ne.symm hne]
    have hk2 : ¬ (pcLookup knew
        (pcErase kacc cache ++ [(kacc, vacc)])).isSome := by
      simp [hlook2]
    unfold part_cache_set
    rw [if_neg hk2]
    have herlen : (pcErase kacc cache).length + 1 = cap := by
      have := pcErase_length_of_mem kacc cache (by simp [hv])
      omega
    have hov : ((pcErase kacc cache ++ [(kacc, vacc)]) ++ [(knew, w)]).length
        > cap := by
      rw [List.length_append, List.length_append]
      simp only [List.length_cons, List.length_nil]
      omega
    rw [if_pos hov]
    cases her : pcErase kacc cache with
    | nil =>
      exfalso
      rw [her] at herlen
      simp at herlen
      omega
    | cons a as =>
      simp only [List.cons_append, List.tail_cons]
      have hassoc : (as ++ [(kacc, vacc)]) ++ [(knew, w)]
          = as ++ (kacc, vacc) :: [(knew, w)] := by
        simp
      rw [hassoc]
      exact pcLookup_isSome_append_mid kacc vacc as [(knew, w)]
  · intro hknew hrest
    have hne : kacc ≠ knew := by
      intro h
      have hl : pcLookup knew ((kacc, v0) :: rest) = some v0 := by
        simp [pcLookup, h]
      rw [hl] at hknew
      cases hknew
    constructor
    · simp [local_part_cache_hit, pcLookup]
    · have hns : ¬ (pcLookup knew ((kacc, v0) :: rest)).isSome := by
        simp [hknew]
      show pcLookup kacc
          (part_cache_set ((kacc, v0) :: rest).length
            ((kacc, v0) :: rest) knew w) = none
      unfold part_cache_set
      rw [if_neg hns]
      rw [if_pos (by simp)]
      simp only [List.cons_append, List.tail_cons]
      rw [pcLookup_append, hrest]
      simp [pcLookup, Ne.symm hne]

/-- C7 witness: a capacity-2 cache, the four clauses exercised on concrete
entries. -/
theorem part_cache_lru_witness :
    (part_cache_set 2 [("a".toList, "1".toList), ("b".toList, "2".toList)]
        ("c".toList) ("3".toList)).length ≤ 2 ∧
    part_cache_set 2 [("a".toList, "1".toList), ("b".toList, "2".toList)]
        ("c".toList) ("3".toList)
      = [("b".toList, "2".toList), ("c".toList, "3".toList)] ∧
    (pcLookup ("a".toList)
        (part_cache_set 2
          (part_cache_get [("a".toList, "1".toList), ("b".toList, "2".toList)]
            ("a".toList)).2
          ("c".toList) ("3".toList))).isSome ∧
    ((local_part_cache_hit
        [("a".toList, "1".toList), ("b".toList, "2".toList)]
        ("a".toList)).1 = some ("1".toList) ∧
      pcLookup ("a".toList)
        (part_cache_set 2
          (local_part_cache_hit
            [("a".toList, "1".toList), ("b".toList, "2".toList)]
            ("a".toList)).2
          ("c".toList) ("3".toList)) = none) :=
  ⟨(part_cache_lru 2 [("a".toList, "1".toList), ("b".toList, "2".toList)]
      [("b".toList, "2".toList)] ("c".toList) ("c".toList) ("a".toList)
      ("3".toList) ("1".toList) ("3".toList)).1 (by decide),
   by
    have h := (part_cache_lru 2
      [("a".toList, "1".toList), ("b".toList, "2".toList)]
      [("b".toList, "2".toList)] ("c".toList) ("c".toList) ("a".toList)
      ("3".toList) ("1".toList) ("3".toList)).2.1
      (by decide) (by decide) (by decide)
    simpa using h,
   (part_cache_lru 2 [("a".toList, "1".toList), ("b".toList, "2".toList)]
      [("b".toList, "2".toList)] ("c".toList) ("c".toList) ("a".toList)
      ("3".toList) ("1".toList) ("3".toList)).2.2.1
      (by decide) (by decide) (by decide) (by decide),
   (part_cache_lru 2 [("a".toList, "1".toList), ("b".toList, "2".toList)]
      [("b".toList, "2".toList)] ("c".toList) ("c".toList) ("a".toList)
      ("3".toList) ("1".toList) ("3".toList)).2.2.2
      (by decide) (by decide)⟩

/-- C9: the selector is total (every branch of the strategy loop in the
source is exception-guarded, and the model is a function).  An explicitly
requested backend that fails to construct yields the no-op backend rather
than a silently substituted real one; under auto the fixed priority order
is DeepL (only when an API key is configured), then M2M100, AventIQ and
the local Marian model, adopting the first that initializes and falling
back to the no-op backend when none do; and the no-op backend's
`translate` / `translate_batch` return their inputs unchanged. -/
theorem get_translator_selection (env : SelEnv) :
    (env.backend ≠ "auto" → tryStrategy env env.backend = none →
      get_translator env = .noop) ∧
    (env.backend = "auto" →
      get_translator env =
        if env.deepl_api_key ≠ "" then .deepl
        else if env.m2m_ok then .m2m100
        else if env.aventiq_ok then .aventiq
        else if env.local_ok then .localMarian
        else .noop) ∧
    (∀ t, noop_translate t = t) ∧
    (∀ l, noop_translate_batch l = l) := by
  have t2 : tryStrategy env "m2m100"
      = if env.m2m_ok then some .m2m100 else none := by
    unfold tryStrategy
    rw [if_neg (by decide), if_pos (Or.inl rfl)]
  have t3 : tryStrategy env "aventiq"
      = if env.aventiq_ok then some .aventiq else none := by
    unfold tryStrategy
    rw [if_neg (by decide), if_neg (by decide), if_pos rfl]
  have t4 : tryStrategy env "local"
      = if env.local_ok then some .localMarian else none := by
    unfold tryStrategy
    rw [if_neg (by decide), if_neg (by decide), if_neg (by decide),
      if_pos (Or.inl rfl)]
  refine ⟨?_, ?_, fun _ => rfl, fun _ => rfl⟩
  · intro hne hnone
    unfold get_translator strategyOrder
    rw [if_neg hne]
    simp [List.findSome?, hnone]
  · intro hauto
    have t1 : tryStrategy env "deepl"
        = if env.deepl_api_key ≠ "" then some .deepl else none := by
      unfold tryStrategy
      rw [if_pos rfl]
    unfold get_translator strategyOrder
    rw [if_pos hauto]
    by_cases hk : env.deepl_api_key = ""
    · rw [if_neg (by simpa using hk)]
      by_cases hm : env.m2m_ok
      · simp [List.findSome?, t2, hm, hk]
      · by_cases ha : env.aventiq_ok
        · simp [List.findSome?, t2, t3, hm, ha, hk]
        · by_cases hl : env.local_ok
          · simp [List.findSome?, t2, t3, t4, hm, ha, hl, hk]
          · simp [List.findSome?, t2, t3, t4, hm, ha, hl, hk]
    · rw [if_pos (by simpa using hk)]
      simp [List.findSome?, t1, hk]

/-- C9 witness: under auto with no DeepL key only M2M100 available the
selector adopts M2M100; an explicit DeepL request without a configured key
yields the no-op backend. -/
theorem get_translator_selection_witness :
    get_translator ⟨"auto", "", true, false, false⟩ = .m2m100 ∧
    get_translator ⟨"deepl", "", true, true, true⟩ = .noop :=
  ⟨by
    have h := (get_translator_selection ⟨"auto", "", true, false, false⟩).2.1
      rfl
    simpa using h,
   (get_translator_selection ⟨"deepl", "", true, true, true⟩).1
    (by decide) (by decide)⟩

/-- C8: the source contradicts its own contract.  The greedy loop of
`_split_text_by_token_limit` measures each candidate through the tokenizer
with truncation at `max_tokens`, so the measured length can never exceed
the limit and the chunk-closing branch is unreachable: for a text of two
three-word sentences under a two-unit limit the function returns the whole
text as a single chunk whose true measure is 6 > 2, although its
docstring promises pieces that do not exceed `max_tokens`. -/
theorem split_exceeds_limit_on_long_sentences :
    split_text_by_token_limit wordCount 2 ("aa aa aa. bb bb bb.".toList)
      = ["aa aa aa. bb bb bb.".toList] ∧
    2 < wordCount ("aa aa aa. bb bb bb.".toList) := by
  refine ⟨by decide, by decide⟩

theorem tryAttempts_some (tb : BatchOracle) (block : List Str) :
    ∀ n c out c', tryAttempts tb block n c = (some out, c') →
      ∃ j, j < n ∧ (∀ j', j' < j → attemptFails tb block (c + j')) ∧
        tb (c + j) block = some out ∧ out.length = block.length := by
  intro n
  induction n with
  | zero =>
    intro c out c' h
    simp [tryAttempts] at h
  | succ n ih =>
    intro c out c' h
    unfold tryAttempts at h
    cases htb : tb c block with
    | some l =>
      simp only [htb] at h
      by_cases hlen : l.length = block.length
      · rw [if_pos hlen] at h
        have hl : l = out := by
          have := congrArg Prod.fst h
          simpa using this
        subst hl
        exact ⟨0, by omega, fun j' hj' => absurd hj' (by omega),
          by simpa using htb, hlen⟩
      · rw [if_neg hlen] at h
        obtain ⟨j, hj, hfail, hsucc, hlen'⟩ := ih (c + 1) out c' h
        refine ⟨j + 1, by omega, ?_, ?_, hlen'⟩
        · intro j' hj'
          cases j' with
          | zero =>
            exact Or.inr ⟨l, by simpa using htb, by simpa using hlen⟩
          | succ j'' =>
            have harith : c + (j'' + 1) = (c + 1) + j'' := by omega
            rw [harith]
            exact hfail j'' (by omega)
        · have harith : c + (j + 1) = (c + 1) + j := by omega
          rw [harith]
          exact hsucc
    | none =>
      simp only [htb] at h
      obtain ⟨j, hj, hfail, hsucc, hlen'⟩ := ih (c + 1) out c' h
      refine ⟨j + 1, by omega, ?_, ?_, hlen'⟩
      · intro j' hj'
        cases j' with
        | zero => exact Or.inl (by simpa using htb)
        | succ j'' =>
          have harith : c + (j'' + 1) = (c + 1) + j'' := by omega
          rw [harith]
          exact hfail j'' (by omega)
      · have harith : c + (j + 1) = (c + 1) + j := by omega
        rw [harith]
        exact hsucc

theorem tryAttempts_none (tb : BatchOracle) (block : List Str) :
    ∀ n c c', tryAttempts tb block n c = (none, c') →
      ∀ j, j < n → attemptFails tb block (c + j) := by
  intro n
  induction n with
  | zero =>
    intro c c' _ j hj
    omega
  | succ n ih =>
    intro c c' h j hj
    unfold tryAttempts at h
    cases htb : tb c block with
    | some l =>
      simp only [htb] at h
      by_cases hlen : l.length = block.length
      · rw [if_pos hlen] at h
        exact absurd (congrArg Prod.fst h) (by simp)
      · rw [if_neg hlen] at h
        cases j with
        | zero => exact Or.inr ⟨l, by simpa using htb, by simpa using hlen⟩
        | succ j'' =>
          have harith : c + (j'' + 1) = (c + 1) + j'' := by omega
          rw [harith]
          exact ih (c + 1) c' h j'' (by omega)
    | none =>
      simp only [htb] at h
      cases j with
      | zero => exact Or.inl (by simpa using htb)
      | succ j'' =>
        have harith : c + (j'' + 1) = (c + 1) + j'' := by omega
        rw [harith]
        exact ih (c + 1) c' h j'' (by omega)

theorem chunkOutcome_claim (tb : BatchOracle) (attempts : Nat)
    (fb : Option (Str → Str)) (block : List Str) (c : Nat) :
    chunkFilledClaim tb attempts fb block
      (chunkOutcome tb attempts fb block c).1 := by
  unfold chunkOutcome
  cases hta : tryAttempts tb block attempts c with
  | mk o c' =>
    cases o with
    | some l =>
      obtain ⟨j, hj, hfail, hsucc, hlen⟩ :=
        tryAttempts_some tb block attempts c l c' hta
      exact Or.inl ⟨c, j, hj, hfail, hsucc, hlen⟩
    | none =>
      have hall := tryAttempts_none tb block attempts c c' hta
      cases fb with
      | some f => exact Or.inr ⟨⟨c, hall⟩, Or.inl ⟨f, rfl, rfl⟩⟩
      | none => exact Or.inr ⟨⟨c, hall⟩, Or.inr ⟨rfl, rfl⟩⟩

theorem chunkOutcome_length (tb : BatchOracle) (attempts : Nat)
    (fb : Option (Str → Str)) (block : List Str) (c : Nat) :
    (chunkOutcome tb attempts fb block c).1.length = block.length := by
  unfold chunkOutcome
  cases hta : tryAttempts tb block attempts c with
  | mk o c' =>
    cases o with
    | some l =>
      obtain ⟨_, _, _, _, hlen⟩ :=
        tryAttempts_some tb block attempts c l c' hta
      simpa using hlen
    | none =>
      cases fb with
      | some f => simp
      | none => simp

theorem runChunksIdx_succ (tb : BatchOracle) (attempts chunkSz : Nat)
    (fb : Option (Str → Str)) (texts : List Str) (b start c : Nat) :
    (runChunksIdx tb attempts chunkSz fb texts (b + 1) start c).1
      = (chunkOutcome tb attempts fb ((texts.drop start).take chunkSz) c).1
        ++ (runChunksIdx tb attempts chunkSz fb texts b (start + chunkSz)
              (chunkOutcome tb attempts fb ((texts.drop start).take chunkSz)
                c).2).1 := rfl

theorem runChunksIdx_length (tb : BatchOracle) (attempts chunkSz : Nat)
    (fb : Option (Str → Str)) (texts : List Str) :
    ∀ b start c, (runChunksIdx tb attempts chunkSz fb texts b start c).1.length
      = min (b * chunkSz) (texts.length - start) := by
  intro b
  induction b with
  | zero =>
    intro start c
    simp [runChunksIdx]
  | succ b ih =>
    intro start c
    rw [runChunksIdx_succ]
    rw [List.length_append, chunkOutcome_length, ih]
    have hblock : ((texts.drop start).take chunkSz).length
        = min chunkSz (texts.length - start) := by
      simp [List.length_take, List.length_drop]
    rw [hblock]
    simp only [Nat.min_def]
    have hmul : (b + 1) * chunkSz = b * chunkSz + chunkSz := by ring
    split_ifs <;> omega

theorem runChunksIdx_fill (tb : BatchOracle) (attempts chunkSz : Nat)
    (fb : Option (Str → Str)) (texts : List Str) :
    ∀ b start c i, i < b →
      chunkFilledClaim tb attempts fb
        ((texts.drop (start + i * chunkSz)).take chunkSz)
        (((runChunksIdx tb attempts chunkSz fb texts b start c).1.drop
            (i * chunkSz)).take chunkSz) := by
  intro b
  induction b with
  | zero =>
    intro start c i hi
    omega
  | succ b ih =>
    intro start c i hi
    rw [runChunksIdx_succ]
    have hrlen : (chunkOutcome tb attempts fb
        ((texts.drop start).take chunkSz) c).1.length
        = ((texts.drop start).take chunkSz).length :=
      chunkOutcome_length tb attempts fb ((texts.drop start).take chunkSz) c
    have hrle : (chunkOutcome tb attempts fb
        ((texts.drop start).take chunkSz) c).1.length ≤ chunkSz := by
      rw [hrlen]
      simp [List.length_take]
    cases i with
    | zero =>
      simp only [Nat.zero_mul, List.drop_zero, Nat.add_zero]
      have htake : ((chunkOutcome tb attempts fb
          ((texts.drop start).take chunkSz) c).1
            ++ (runChunksIdx tb attempts chunkSz fb texts b
                (start + chunkSz)
                (chunkOutcome tb attempts fb ((texts.drop start).take chunkSz)
                  c).2).1).take chunkSz
          = (chunkOutcome tb attempts fb
              ((texts.drop start).take chunkSz) c).1 := by
        rcases Nat.lt_or_ge (chunkOutcome tb attempts fb
            ((texts.drop start).take chunkSz) c).1.length chunkSz with hlt | hge
        · have hshort : texts.length - start < chunkSz := by
            rw [hrlen] at hlt
            simp only [List.length_take, List.length_drop] at hlt
            omega
          have hrest : (runChunksIdx tb attempts chunkSz fb texts b
              (start + chunkSz)
              (chunkOutcome tb attempts fb ((texts.drop start).take chunkSz)
                c).2).1 = [] := by
            apply List.length_eq_zero.mp
            rw [runChunksIdx_length]
            have hz : texts.length - (start + chunkSz) = 0 := by omega
            simp [hz]
          rw [hrest, List.append_nil]
          exact List.take_of_length_le (Nat.le_of_lt hlt)
        · have hEq : (chunkOutcome tb attempts fb
              ((texts.drop start).take chunkSz) c).1.length = chunkSz :=
            Nat.le_antisymm hrle hge
          rw [List.take_append_eq_append_take, hEq, Nat.sub_self,
            List.take_zero, List.append_nil]
          exact List.take_of_length_le (by omega)
      rw [htake]
      exact chunkOutcome_claim tb attempts fb
        ((texts.drop start).take chunkSz) c
    | succ i =>
      have hdrop : ((chunkOutcome tb attempts fb
          ((texts.drop start).take chunkSz) c).1
            ++ (runChunksIdx tb attempts chunkSz fb texts b
                (start + chunkSz)
                (chunkOutcome tb attempts fb ((texts.drop start).take chunkSz)
                  c).2).1).drop ((i + 1) * chunkSz)
          = (runChunksIdx tb attempts chunkSz fb texts b (start + chunkSz)
              (chunkOutcome tb attempts fb ((texts.drop start).take chunkSz)
                c).2).1.drop (i * chunkSz) := by
        rcases Nat.lt_or_ge (chunkOutcome tb attempts fb
            ((texts.drop start).take chunkSz) c).1.length chunkSz with hlt | hge
        · have hshort : texts.length - start < chunkSz := by
            rw [hrlen] at hlt
            simp only [List.length_take, List.length_drop] at hlt
            omega
          have hrest : (runChunksIdx tb attempts chunkSz fb texts b
              (start + chunkSz)
              (chunkOutcome tb attempts fb ((texts.drop start).take chunkSz)
                c).2).1 = [] := by
            apply List.length_eq_zero.mp
            rw [runChunksIdx_length]
            have hz : texts.length - (start + chunkSz) = 0 := by omega
            simp [hz]
          rw [hrest, List.append_nil, List.drop_nil]
          apply List.drop_eq_nil_of_le
          have : (i + 1) * chunkSz = i * chunkSz + chunkSz := by ring
          omega
        · have hEq : (chunkOutcome tb attempts fb
              ((texts.drop start).take chunkSz) c).1.length = chunkSz :=
            Nat.le_antisymm hrle hge
          rw [List.drop_append_eq_append_drop, hEq]
          have hmul : (i + 1) * chunkSz = i * chunkSz + chunkSz := by ring
          have hd1 : ((chunkOutcome tb attempts fb
              ((texts.drop start).take chunkSz) c).1).drop
                ((i + 1) * chunkSz) = [] := by
            apply List.drop_eq_nil_of_le
            rw [hEq]
            omega
          rw [hd1, List.nil_append]
          congr 1
          omega
      rw [hdrop]
      have harith : start + chunkSz + i * chunkSz = start + (i + 1) * chunkSz := by
        ring
      have hres := ih (start + chunkSz)
        (chunkOutcome tb attempts fb ((texts.drop start).take chunkSz) c).2
        i (by omega)
      rw [harith] at hres
      exact hres

/-- C2: for every non-empty input, chunk size at least 1 and attempt budget
at least 1, `run_batched_translation` returns exactly one output slot per
input slot, in input order, and every chunk of the output is filled either
by a backend `translate_batch` response of matching length from some
attempt (earlier attempts in its window having failed by exception or
length mismatch), or — after a full window of `max_attempts` failed
attempts — by the per-item fallback when one is supplied, or else by the
chunk's original texts verbatim. -/
theorem run_batched_translation_spec (texts : List Str) (tb : BatchOracle)
    (cs ma : Nat) (fb : Option (Str → Str))
    (h1 : texts ≠ []) (h2 : 1 ≤ cs) (h3 : 1 ≤ ma) :
    (run_batched_translation texts tb cs ma fb).length = texts.length ∧
    ∀ i, i < (texts.length + cs - 1) / cs →
      chunkFilledClaim tb ma fb ((texts.drop (i * cs)).take cs)
        (((run_batched_translation texts tb cs ma fb).drop (i * cs)).take
          cs) := by
  have hcs0 : cs ≠ 0 := by omega
  have hma0 : ma ≠ 0 := by omega
  have hrun : run_batched_translation texts tb cs ma fb
      = (runChunksIdx tb ma cs fb texts
          ((texts.length + cs - 1) / cs) 0 0).1 := by
    unfold run_batched_translation
    rw [if_neg h1]
    simp only [hcs0, if_false, hma0, Nat.max_eq_right h2, Nat.max_eq_right h3]
  constructor
  · rw [hrun, runChunksIdx_length]
    simp only [Nat.sub_zero]
    have hlen0 : 0 < texts.length := List.length_pos.mpr h1
    have hq : texts.length ≤ (texts.length + cs - 1) / cs * cs := by
      have hdm := Nat.div_add_mod (texts.length + cs - 1) cs
      have hmlt : (texts.length + cs - 1) % cs < cs :=
        Nat.mod_lt _ (by omega)
      rw [Nat.mul_comm] at hdm
      generalize hA : (texts.length + cs - 1) / cs * cs = A at hdm ⊢
      omega
    exact Nat.min_eq_right hq
  · intro i hi
    rw [hrun]
    have hres := runChunksIdx_fill tb ma cs fb texts
      ((texts.length + cs - 1) / cs) 0 0 i hi
    simpa using hres

/-- C2 witness: three texts in chunks of two under three attempts against a
backend that raises on its first call only; the theorem's hypotheses hold
at this concrete input. -/
theorem run_batched_translation_spec_witness :
    (run_batched_translation ["a".toList, "b".toList, "c".toList]
        (fun n block => if n = 0 then none else some block) 2 3
        none).length
      = (["a".toList, "b".toList, "c".toList] : List Str).length ∧
    ∀ i, i < ((["a".toList, "b".toList, "c".toList] : List Str).length
        + 2 - 1) / 2 →
      chunkFilledClaim (fun n block => if n = 0 then none else some block)
        3 none
        (((["a".toList, "b".toList, "c".toList] : List Str).drop
          (i * 2)).take 2)
        (((run_batched_translation ["a".toList, "b".toList, "c".toList]
            (fun n block => if n = 0 then none else some block) 2 3
            none).drop (i * 2)).take 2) :=
  run_batched_translation_spec ["a".toList, "b".toList, "c".toList]
    (fun n block => if n = 0 then none else some block) 2 3 none
    (by decide) (by decide) (by decide)

theorem isWsChar_space : isWsChar ' ' = true := by decide

theorem isQuoteChar_space : isQuoteChar ' ' = false := by decide

theorem toLowerCh_space : toLowerCh ' ' = ' ' := by decide

theorem ws_not_quote (c : Char) (h : isWsChar c = true) :
    isQuoteChar c = false := by
  simp only [isWsChar, Bool.or_eq_true, decide_eq_true_eq] at h
  simp only [isQuoteChar, Bool.or_eq_false_iff, decide_eq_false_iff_not]
  omega

theorem quote_not_ws (c : Char) (h : isQuoteChar c = true) :
    isWsChar c = false := by
  simp only [isQuoteChar, Bool.or_eq_true, decide_eq_true_eq] at h
  simp only [isWsChar, Bool.or_eq_false_iff, decide_eq_false_iff_not]
  omega

theorem toLowerCh_toNat_of_upper (c : Char)
    (h : 65 ≤ c.toNat ∧ c.toNat ≤ 90) :
    (toLowerCh c).toNat = c.toNat + 32 := by
  unfold toLowerCh
  rw [if_pos h]
  unfold Char.ofNat
  rw [dif_pos (Or.inl (by omega))]
  rfl

theorem toLowerCh_eq_self_of_not (c : Char)
    (h : ¬ (65 ≤ c.toNat ∧ c.toNat ≤ 90)) : toLowerCh c = c := by
  unfold toLowerCh
  rw [if_neg h]

theorem isWsChar_toLowerCh (c : Char) :
    isWsChar (toLowerCh c) = isWsChar c := by
  by_cases h : 65 ≤ c.toNat ∧ c.toNat ≤ 90
  · have ht := toLowerCh_toNat_of_upper c h
    have h1 : isWsChar (toLowerCh c) = false := by
      simp only [isWsChar, ht, Bool.or_eq_false_iff, decide_eq_false_iff_not]
      omega
    have h2 : isWsChar c = false := by
      simp only [isWsChar, Bool.or_eq_false_iff, decide_eq_false_iff_not]
      omega
    rw [h1, h2]
  · rw [toLowerCh_eq_self_of_not c h]

theorem isQuoteChar_toLowerCh (c : Char) :
    isQuoteChar (toLowerCh c) = isQuoteChar c := by
  by_cases h : 65 ≤ c.toNat ∧ c.toNat ≤ 90
  · have ht := toLowerCh_toNat_of_upper c h
    have h1 : isQuoteChar (toLowerCh c) = false := by
      simp only [isQuoteChar, ht, Bool.or_eq_false_iff,
        decide_eq_false_iff_not]
      omega
    have h2 : isQuoteChar c = false := by
      simp only [isQuoteChar, Bool.or_eq_false_iff, decide_eq_false_iff_not]
      omega
    rw [h1, h2]
  · rw [toLowerCh_eq_self_of_not c h]

theorem toLowerCh_idem (c : Char) :
    toLowerCh (toLowerCh c) = toLowerCh c := by
  by_cases h : 65 ≤ c.toNat ∧ c.toNat ≤ 90
  · exact toLowerCh_eq_self_of_not _
      (by rw [toLowerCh_toNat_of_upper c h]; omega)
  · rw [toLowerCh_eq_self_of_not c h, toLowerCh_eq_self_of_not c h]

theorem dropWhile_append_split (p : Char → Bool) (a b : Str) :
    List.dropWhile p (a ++ b)
      = if List.dropWhile p a = [] then List.dropWhile p b
        else List.dropWhile p a ++ b := by
  induction a with
  | nil => simp
  | cons c cs ih =>
    by_cases hc : p c
    · simpa [List.dropWhile_cons, hc] using ih
    · simp [List.dropWhile_cons, hc]

theorem rdropWhileP_cons (p : Char → Bool) (c : Char) (cs : Str) :
    rdropWhileP p (c :: cs)
      = match rdropWhileP p cs with
        | [] => if p c then [] else [c]
        | d :: ds => c :: d :: ds := rfl

theorem rdropWhileP_concat (p : Char → Bool) (c : Char) (x : Str) :
    rdropWhileP p (x ++ [c])
      = if p c then rdropWhileP p x else x ++ [c] := by
  induction x with
  | nil => by_cases hc : p c <;> simp [rdropWhileP, hc]
  | cons d ds ih =>
    by_cases hc : p c
    · rw [if_pos hc, List.cons_append, rdropWhileP_cons, ih, if_pos hc,
        ← rdropWhileP_cons]
    · rw [if_neg hc, List.cons_append, rdropWhileP_cons, ih, if_neg hc]
      cases hd : ds ++ [c] with
      | nil => exact absurd hd (by simp)
      | cons x xs => rfl

theorem rdropWhileP_append_all (p : Char → Bool) (x : Str) :
    ∀ a : Str, (∀ c ∈ a, p c) → rdropWhileP p (x ++ a) = rdropWhileP p x := by
  intro a
  induction a using List.reverseRecOn with
  | nil => intro _; simp
  | append_singleton a c ih =>
    intro h
    rw [← List.append_assoc, rdropWhileP_concat, if_pos (h c (by simp))]
    exact ih fun d hd => h d (by simp [hd])

theorem rdropWhileP_eq_nil_iff (p : Char → Bool) :
    ∀ l : Str, rdropWhileP p l = [] ↔ ∀ c ∈ l, p c := by
  intro l
  induction l with
  | nil => simp [rdropWhileP]
  | cons c cs ih =>
    constructor
    · intro h
      cases hcs : rdropWhileP p cs with
      | nil =>
        simp only [rdropWhileP, hcs] at h
        by_cases hc : p c
        · intro d hd
          rcases List.mem_cons.mp hd with rfl | hin
          · exact hc
          · exact (ih.mp hcs) d hin
        · rw [if_neg hc] at h
          cases h
      | cons e es =>
        simp only [rdropWhileP, hcs] at h
        exact absurd h (by simp)
    · intro h
      have hcs : rdropWhileP p cs = []
        := ih.mpr (fun d hd => h d (List.mem_cons_of_mem c hd))
      simp only [rdropWhileP, hcs]
      rw [if_pos (h c (List.mem_cons_self c cs))]

theorem rdropWhileP_idem (p : Char → Bool) :
    ∀ l : Str, rdropWhileP p (rdropWhileP p l) = rdropWhileP p l := by
  intro l
  induction l with
  | nil => rfl
  | cons c cs ih =>
    cases hcs : rdropWhileP p cs with
    | nil =>
      simp only [rdropWhileP, hcs]
      by_cases hc : p c
      · rw [if_pos hc]
        rfl
      · rw [if_neg hc]
        simp only [rdropWhileP]
        rw [if_neg hc]
    | cons e es =>
      have ih' : rdropWhileP p (e :: es) = e :: es := by
        rw [hcs] at ih
        exact ih
      have houter : rdropWhileP p (c :: cs) = c :: e :: es := by
        simp only [rdropWhileP_cons, hcs]
      rw [houter, rdropWhileP_cons, ih']

theorem collapseGo_true_cons_ws (c : Char) (cs : Str)
    (hc : isWsChar c = true) :
    collapseGo true (c :: cs) = collapseGo true cs := by
  simp [collapseGo, hc]

theorem collapseGo_false_cons_ws (c : Char) (cs : Str)
    (hc : isWsChar c = true) :
    collapseGo false (c :: cs) = ' ' :: collapseGo true cs := by
  simp [collapseGo, hc]

theorem collapseGo_cons_not_ws (b : Bool) (c : Char) (cs : Str)
    (hc : isWsChar c = false) :
    collapseGo b (c :: cs) = c :: collapseGo false cs := by
  cases b <;> simp [collapseGo, hc]

theorem collapseGo_false_eq_nil_iff (s : Str) :
    collapseGo false s = [] ↔ s = [] := by
  cases s with
  | nil => simp [collapseGo]
  | cons c cs =>
    by_cases hc : isWsChar c
    · rw [collapseGo_false_cons_ws c cs hc]
      simp
    · rw [collapseGo_cons_not_ws false c cs (by simpa using hc)]
      simp

theorem collapseGo_true_eq_nil_iff (s : Str) :
    collapseGo true s = [] ↔ ∀ c ∈ s, isWsChar c := by
  induction s with
  | nil => simp [collapseGo]
  | cons c cs ih =>
    by_cases hc : isWsChar c
    · rw [collapseGo_true_cons_ws c cs hc]
      simp [hc, ih]
    · rw [collapseGo_cons_not_ws true c cs (by simpa using hc)]
      simp [hc]

theorem dropWhileWs_collapseGo_true (r : Str) :
    List.dropWhile isWsChar (collapseGo true r)
      = collapseGo false (List.dropWhile isWsChar r) := by
  induction r with
  | nil => rfl
  | cons d s ih =>
    by_cases hd : isWsChar d
    · rw [collapseGo_true_cons_ws d s hd, ih,
        List.dropWhile_cons_of_pos hd]
    · have hd' : isWsChar d = false := by simpa using hd
      rw [collapseGo_cons_not_ws true d s hd',
        List.dropWhile_cons_of_neg (by simp [hd']),
        List.dropWhile_cons_of_neg (by simp [hd']),
        collapseGo_cons_not_ws false d s hd']

theorem dropWhileWs_collapseWs (t : Str) :
    List.dropWhile isWsChar (collapseWs t)
      = collapseWs (List.dropWhile isWsChar t) := by
  unfold collapseWs
  cases t with
  | nil => rfl
  | cons c cs =>
    by_cases hc : isWsChar c
    · rw [collapseGo_false_cons_ws c cs hc,
        List.dropWhile_cons_of_pos (by simp [isWsChar_space]),
        List.dropWhile_cons_of_pos hc]
      exact dropWhileWs_collapseGo_true cs
    · have hc' : isWsChar c = false := by simpa using hc
      rw [collapseGo_cons_not_ws false c cs hc',
        List.dropWhile_cons_of_neg (by simp [hc']),
        List.dropWhile_cons_of_neg (by simp [hc']),
        collapseGo_cons_not_ws false c cs hc']

theorem rdropWs_collapseGo (s : Str) :
    ∀ b : Bool, rdropWhileP isWsChar (collapseGo b s)
      = collapseGo b (rdropWhileP isWsChar s) := by
  induction s with
  | nil => intro b; rfl
  | cons c r ih =>
    intro b
    by_cases hc : isWsChar c
    · cases b with
      | true =>
        rw [collapseGo_true_cons_ws c r hc, ih true]
        cases hr : rdropWhileP isWsChar r with
        | nil =>
          rw [show rdropWhileP isWsChar (c :: r) = [] by
            rw [rdropWhileP_cons, hr]
            exact if_pos hc]
        | cons e es =>
          rw [show rdropWhileP isWsChar (c :: r) = c :: e :: es by
            rw [rdropWhileP_cons, hr]]
          rw [collapseGo_true_cons_ws c (e :: es) hc]
      | false =>
        rw [collapseGo_false_cons_ws c r hc]
        cases hr : rdropWhileP isWsChar r with
        | nil =>
          rw [show rdropWhileP isWsChar (' ' :: collapseGo true r) = [] by
            rw [rdropWhileP_cons, ih true, hr]
            exact if_pos isWsChar_space]
          rw [show rdropWhileP isWsChar (c :: r) = [] by
            rw [rdropWhileP_cons, hr]
            exact if_pos hc]
          rfl
        | cons e es =>
          cases hz : collapseGo true (e :: es) with
          | nil =>
            exfalso
            have hall : ∀ d ∈ e :: es, isWsChar d :=
              (collapseGo_true_eq_nil_iff _).mp hz
            have hnil : rdropWhileP isWsChar (e :: es) = [] :=
              (rdropWhileP_eq_nil_iff _ _).mpr hall
            have hidem := rdropWhileP_idem isWsChar r
            rw [hr] at hidem
            rw [hidem] at hnil
            cases hnil
          | cons z zs =>
            rw [show rdropWhileP isWsChar (' ' :: collapseGo true r)
                = ' ' :: z :: zs by
              rw [rdropWhileP_cons, ih true, hr, hz]]
            rw [show rdropWhileP isWsChar (c :: r) = c :: e :: es by
              rw [rdropWhileP_cons, hr]]
            rw [collapseGo_false_cons_ws c (e :: es) hc, hz]
    · have hc' : isWsChar c = false := by simpa using hc
      rw [collapseGo_cons_not_ws b c r hc']
      cases hr : rdropWhileP isWsChar r with
      | nil =>
        rw [show rdropWhileP isWsChar (c :: collapseGo false r) = [c] by
          rw [rdropWhileP_cons, ih false, hr]
          rw [show collapseGo false ([] : Str) = [] from rfl]
          exact if_neg (by simp [hc'])]
        rw [show rdropWhileP isWsChar (c :: r) = [c] by
          rw [rdropWhileP_cons, hr]
          exact if_neg (by simp [hc'])]
        rw [collapseGo_cons_not_ws b c [] hc']
        rfl
      | cons e es =>
        cases hz : collapseGo false (e :: es) with
        | nil =>
          exact absurd ((collapseGo_false_eq_nil_iff _).mp hz) (by simp)
        | cons z zs =>
          rw [show rdropWhileP isWsChar (c :: collapseGo false r)
              = c :: z :: zs by
            rw [rdropWhileP_cons, ih false, hr, hz]]
          rw [show rdropWhileP isWsChar (c :: r) = c :: e :: es by
            rw [rdropWhileP_cons, hr]]
          rw [collapseGo_cons_not_ws b c (e :: es) hc', hz]

theorem dropWhileQ_collapseWs (s : Str) :
    List.dropWhile isQuoteChar (collapseWs s)
      = collapseWs (List.dropWhile isQuoteChar s) := by
  unfold collapseWs
  induction s with
  | nil => rfl
  | cons c r ih =>
    by_cases hc : isWsChar c
    · have hq : isQuoteChar c = false := ws_not_quote c hc
      rw [collapseGo_false_cons_ws c r hc,
        List.dropWhile_cons_of_neg (by simp [isQuoteChar_space]),
        List.dropWhile_cons_of_neg (by simp [hq]),
        collapseGo_false_cons_ws c r hc]
    · have hc' : isWsChar c = false := by simpa using hc
      by_cases hcq : isQuoteChar c
      · rw [collapseGo_cons_not_ws false c r hc',
          List.dropWhile_cons_of_pos hcq,
          List.dropWhile_cons_of_pos hcq, ih]
      · rw [collapseGo_cons_not_ws false c r hc',
          List.dropWhile_cons_of_neg (by simpa using hcq),
          List.dropWhile_cons_of_neg (by simpa using hcq),
          collapseGo_cons_not_ws false c r hc']

theorem rdropQ_collapseGo (s : Str) :
    ∀ b : Bool, rdropWhileP isQuoteChar (collapseGo b s)
      = collapseGo b (rdropWhileP isQuoteChar s) := by
  induction s with
  | nil => intro b; rfl
  | cons c r ih =>
    intro b
    by_cases hc : isWsChar c
    · have hq : isQuoteChar c = false := ws_not_quote c hc
      cases b with
      | true =>
        rw [collapseGo_true_cons_ws c r hc, ih true]
        cases hr : rdropWhileP isQuoteChar r with
        | nil =>
          rw [show rdropWhileP isQuoteChar (c :: r) = [c] by
            rw [rdropWhileP_cons, hr]
            exact if_neg (by simp [hq])]
          rw [collapseGo_true_cons_ws c [] hc]
        | cons e es =>
          rw [show rdropWhileP isQuoteChar (c :: r) = c :: e :: es by
            rw [rdropWhileP_cons, hr]]
          rw [collapseGo_true_cons_ws c (e :: es) hc]
      | false =>
        rw [collapseGo_false_cons_ws c r hc]
        cases hr : rdropWhileP isQuoteChar r with
        | nil =>
          rw [show rdropWhileP isQuoteChar (' ' :: collapseGo true r)
              = [' '] by
            rw [rdropWhileP_cons, ih true, hr]
            rfl]
          rw [show rdropWhileP isQuoteChar (c :: r) = [c] by
            rw [rdropWhileP_cons, hr]
            exact if_neg (by simp [hq])]
          rw [collapseGo_false_cons_ws c [] hc]
          rfl
        | cons e es =>
          cases hz : collapseGo true (e :: es) with
          | nil =>
            rw [show rdropWhileP isQuoteChar (' ' :: collapseGo true r)
                = [' '] by
              rw [rdropWhileP_cons, ih true, hr, hz]
              rfl]
            rw [show rdropWhileP isQuoteChar (c :: r) = c :: e :: es by
              rw [rdropWhileP_cons, hr]]
            rw [collapseGo_false_cons_ws c (e :: es) hc, hz]
          | cons z zs =>
            rw [show rdropWhileP isQuoteChar (' ' :: collapseGo true r)
                = ' ' :: z :: zs by
              rw [rdropWhileP_cons, ih true, hr, hz]]
            rw [show rdropWhileP isQuoteChar (c :: r) = c :: e :: es by
              rw [rdropWhileP_cons, hr]]
            rw [collapseGo_false_cons_ws c (e :: es) hc, hz]
    · have hc' : isWsChar c = false := by simpa using hc
      rw [collapseGo_cons_not_ws b c r hc']
      cases hr : rdropWhileP isQuoteChar r with
      | nil =>
        by_cases hcq : isQuoteChar c
        · rw [show rdropWhileP isQuoteChar (c :: collapseGo false r)
              = [] by
            rw [rdropWhileP_cons, ih false, hr]
            exact if_pos hcq]
          rw [show rdropWhileP isQuoteChar (c :: r) = [] by
            rw [rdropWhileP_cons, hr]
            exact if_pos hcq]
          rfl
        · rw [show rdropWhileP isQuoteChar (c :: collapseGo false r)
              = [c] by
            rw [rdropWhileP_cons, ih false, hr]
            exact if_neg (by simpa using hcq)]
          rw [show rdropWhileP isQuoteChar (c :: r) = [c] by
            rw [rdropWhileP_cons, hr]
            exact if_neg (by simpa using hcq)]
          rw [collapseGo_cons_not_ws b c [] hc']
          rfl
      | cons e es =>
        cases hz : collapseGo false (e :: es) with
        | nil => exact absurd ((collapseGo_false_eq_nil_iff _).mp hz) (by simp)
        | cons z zs =>
          rw [show rdropWhileP isQuoteChar (c :: collapseGo false r)
              = c :: z :: zs by
            rw [rdropWhileP_cons, ih false, hr, hz]]
          rw [show rdropWhileP isQuoteChar (c :: r) = c :: e :: es by
            rw [rdropWhileP_cons, hr]]
          rw [collapseGo_cons_not_ws b c (e :: es) hc', hz]

theorem collapseGo_idem (s : Str) :
    collapseGo false (collapseGo false s) = collapseGo false s ∧
    collapseGo true (collapseGo true s) = collapseGo true s := by
  induction s with
  | nil => exact ⟨rfl, rfl⟩
  | cons c r ih =>
    obtain ⟨ihf, iht⟩ := ih
    by_cases hc : isWsChar c
    · constructor
      · rw [collapseGo_false_cons_ws c r hc,
          collapseGo_false_cons_ws ' ' _ isWsChar_space]
        rw [show collapseGo true (collapseGo true r) = collapseGo true r
          from iht]
      · rw [collapseGo_true_cons_ws c r hc, iht]
    · have hc' : isWsChar c = false := by simpa using hc
      constructor
      · rw [collapseGo_cons_not_ws false c r hc',
          collapseGo_cons_not_ws false c _ hc', ihf]
      · rw [collapseGo_cons_not_ws true c r hc',
          collapseGo_cons_not_ws true c _ hc', ihf]

theorem rdropWs_collapseWs (t : Str) :
    rdropWhileP isWsChar (collapseWs t)
      = collapseWs (rdropWhileP isWsChar t) :=
  rdropWs_collapseGo t false

theorem rdropQ_collapseWs (t : Str) :
    rdropWhileP isQuoteChar (collapseWs t)
      = collapseWs (rdropWhileP isQuoteChar t) :=
  rdropQ_collapseGo t false

theorem collapseWs_idem (t : Str) :
    collapseWs (collapseWs t) = collapseWs t :=
  (collapseGo_idem t).1

theorem pyStrip_collapseWs (t : Str) :
    pyStrip (collapseWs t) = collapseWs (pyStrip t) := by
  unfold pyStrip
  rw [dropWhileWs_collapseWs]
  exact rdropWs_collapseWs _

theorem stripQuotes_collapseWs (s : Str) :
    stripQuotes (collapseWs s) = collapseWs (stripQuotes s) := by
  unfold stripQuotes
  rw [dropWhileQ_collapseWs]
  exact rdropQ_collapseWs _

theorem normalize_text_pipeline (lower : Bool) (u : Str) :
    normalize_text lower u
      = if lower then (collapseWs (stripQuotes (pyStrip u))).map toLowerCh
        else collapseWs (stripQuotes (pyStrip u)) := by
  cases u with
  | nil => cases lower <;> rfl
  | cons c cs => rfl

theorem collapse_determines_normalize (lower : Bool) (t : Str) :
    normalize_text lower t = normalize_text lower (collapseWs t) := by
  rw [normalize_text_pipeline, normalize_text_pipeline]
  have key : collapseWs (stripQuotes (pyStrip (collapseWs t)))
      = collapseWs (stripQuotes (pyStrip t)) := by
    rw [pyStrip_collapseWs, stripQuotes_collapseWs, collapseWs_idem]
  rw [key]

theorem rdropWhileP_map_pres (p : Char → Bool) (f : Char → Char)
    (hp : ∀ c, p (f c) = p c) :
    ∀ l : Str, rdropWhileP p (l.map f) = (rdropWhileP p l).map f := by
  intro l
  induction l with
  | nil => rfl
  | cons c cs ih =>
    cases hr : rdropWhileP p cs with
    | nil =>
      have hmap : rdropWhileP p (cs.map f) = [] := by
        rw [ih, hr]
        rfl
      rw [List.map_cons, rdropWhileP_cons, hmap, rdropWhileP_cons, hr]
      by_cases hc : p c
      · rw [if_pos (by rw [hp c]; exact hc), if_pos hc]
        rfl
      · rw [if_neg (by rw [hp c]; exact hc), if_neg hc]
        rfl
    | cons e es =>
      have hmap : rdropWhileP p (cs.map f) = (e :: es).map f := by
        rw [ih, hr]
      rw [List.map_cons, rdropWhileP_cons, hmap, rdropWhileP_cons, hr]
      rfl

theorem dropWhile_map_pres (p : Char → Bool) (f : Char → Char)
    (hp : ∀ c, p (f c) = p c) (l : Str) :
    List.dropWhile p (l.map f) = (List.dropWhile p l).map f := by
  rw [List.dropWhile_map]
  have hpf : p ∘ f = p := funext hp
  rw [hpf]

theorem collapseGo_map_lower (s : Str) :
    ∀ b : Bool, collapseGo b (s.map toLowerCh)
      = (collapseGo b s).map toLowerCh := by
  induction s with
  | nil => intro b; rfl
  | cons c r ih =>
    intro b
    by_cases hc : isWsChar c
    · have hlc : isWsChar (toLowerCh c) = true := by
        rw [isWsChar_toLowerCh]
        exact hc
      cases b with
      | true =>
        rw [List.map_cons, collapseGo_true_cons_ws _ _ hlc,
          collapseGo_true_cons_ws _ _ hc, ih true]
      | false =>
        rw [List.map_cons, collapseGo_false_cons_ws _ _ hlc,
          collapseGo_false_cons_ws _ _ hc, ih true, List.map_cons,
          toLowerCh_space]
    · have hc' : isWsChar c = false := by simpa using hc
      have hlc : isWsChar (toLowerCh c) = false := by
        rw [isWsChar_toLowerCh]
        exact hc'
      rw [List.map_cons, collapseGo_cons_not_ws b _ _ hlc,
        collapseGo_cons_not_ws b _ _ hc', ih false, List.map_cons]

theorem normalize_map_lower (t : Str) :
    normalize_text true (t.map toLowerCh) = normalize_text true t := by
  rw [normalize_text_pipeline, normalize_text_pipeline]
  have h1 : pyStrip (t.map toLowerCh) = (pyStrip t).map toLowerCh := by
    unfold pyStrip
    rw [dropWhile_map_pres _ _ isWsChar_toLowerCh,
      rdropWhileP_map_pres _ _ isWsChar_toLowerCh]
  have h2 : stripQuotes ((pyStrip t).map toLowerCh)
      = (stripQuotes (pyStrip t)).map toLowerCh := by
    unfold stripQuotes
    rw [dropWhile_map_pres _ _ isQuoteChar_toLowerCh,
      rdropWhileP_map_pres _ _ isQuoteChar_toLowerCh]
  have h3 : collapseWs ((stripQuotes (pyStrip t)).map toLowerCh)
      = (collapseWs (stripQuotes (pyStrip t))).map toLowerCh :=
    collapseGo_map_lower _ false
  rw [if_pos rfl, if_pos rfl, h1, h2, h3, List.map_map]
  congr 1
  funext c
  exact toLowerCh_idem c

theorem pyStrip_pad (t ws1 ws2 : Str)
    (h1 : ∀ c ∈ ws1, isWsChar c) (h2 : ∀ c ∈ ws2, isWsChar c) :
    pyStrip (ws1 ++ t ++ ws2) = pyStrip t := by
  unfold pyStrip
  rw [List.append_assoc, dropWhile_append_split,
    if_pos (dropWhile_eq_nil_of_all isWsChar ws1 h1),
    dropWhile_append_split]
  cases hdt : List.dropWhile isWsChar t with
  | nil =>
    rw [if_pos rfl, dropWhile_eq_nil_of_all isWsChar ws2 h2]
  | cons d ds =>
    rw [if_neg (by simp)]
    rw [← hdt]
    exact rdropWhileP_append_all isWsChar _ ws2 h2

theorem stripQuotes_wrap (t : Str) (q q' : Char)
    (hq : isQuoteChar q) (hq' : isQuoteChar q') (hs : pyStrip t = t) :
    stripQuotes (pyStrip (q :: (t ++ [q'])))
      = stripQuotes (pyStrip t) := by
  have hqw : isWsChar q = false := quote_not_ws q hq
  have hqw' : isWsChar q' = false := quote_not_ws q' hq'
  have hps : pyStrip (q :: (t ++ [q'])) = q :: (t ++ [q']) := by
    unfold pyStrip
    rw [List.dropWhile_cons_of_neg (by simp [hqw])]
    rw [show q :: (t ++ [q']) = (q :: t) ++ [q'] by simp]
    rw [rdropWhileP_concat, if_neg (by simp [hqw'])]
  rw [hps, hs]
  unfold stripQuotes
  rw [List.dropWhile_cons_of_pos hq, dropWhile_append_split]
  cases hdt : List.dropWhile isQuoteChar t with
  | nil =>
    rw [if_pos rfl,
      show List.dropWhile isQuoteChar [q'] = [] by
        rw [List.dropWhile_cons_of_pos hq']
        rfl]
  | cons d ds =>
    rw [if_neg (by simp), ← hdt, rdropWhileP_concat, if_pos hq']

/-- C5 counterexample: the texts differ only in one layer of surrounding
double quotes, yet derive different cache keys — quote stripping happens
after trimming but before whitespace collapsing, so the leading space
inside the quotes survives in one normalized form and not the other. -/
theorem make_key_quote_layer_cex :
    make_key true (" hi".toList) ("es".toList)
      ≠ make_key true ("\" hi\"".toList) ("es".toList) := by
  decide

/-- C5 amended: key derivation is invariant under leading/trailing
whitespace, under whitespace-run replacement (two texts with the same
whitespace-collapsed form share a key), under letter case given the
default case-fold configuration, and under a layer of surrounding quote
characters provided the enclosed text carries no leading or trailing
whitespace (quote stripping — which removes all surrounding quote
characters, not one layer — runs after trimming but before collapsing). -/
theorem make_key_normalization (lower : Bool) (lang t t' ws1 ws2 : Str)
    (q q' : Char) :
    ((∀ c ∈ ws1, isWsChar c) → (∀ c ∈ ws2, isWsChar c) →
      make_key lower (ws1 ++ t ++ ws2) lang = make_key lower t lang) ∧
    (isQuoteChar q → isQuoteChar q' → pyStrip t = t →
      make_key lower (q :: (t ++ [q'])) lang = make_key lower t lang) ∧
    (t.map toLowerCh = t'.map toLowerCh →
      make_key true t lang = make_key true t' lang) ∧
    (collapseWs t = collapseWs t' →
      make_key lower t lang = make_key lower t' lang) := by
  refine ⟨?_, ?_, ?_, ?_⟩
  · intro h1 h2
    unfold make_key
    rw [normalize_text_pipeline, normalize_text_pipeline,
      pyStrip_pad t ws1 ws2 h1 h2]
  · intro hq hq' hs
    unfold make_key
    rw [normalize_text_pipeline, normalize_text_pipeline,
      stripQuotes_wrap t q q' hq hq' hs]
  · intro hmap
    unfold make_key
    rw [← normalize_map_lower t, ← normalize_map_lower t', hmap]
  · intro hcol
    unfold make_key
    rw [collapse_determines_normalize lower t,
      collapse_determines_normalize lower t', hcol]

/-- C5 witness: concrete instances of all four amended invariances at the
default configuration. -/
theorem make_key_normalization_witness :
    make_key true ("  Hello World ".toList) ("es".toList)
      = make_key true ("Hello World".toList) ("es".toList) ∧
    make_key true ("\"Hello World\"".toList) ("es".toList)
      = make_key true ("Hello World".toList) ("es".toList) ∧
    make_key true ("HELLO world".toList) ("es".toList)
      = make_key true ("hello WORLD".toList) ("es".toList) ∧
    make_key true ("Hello   World".toList) ("es".toList)
      = make_key true ("Hello World".toList) ("es".toList) := by
  refine ⟨?_, ?_, ?_, ?_⟩
  · exact (make_key_normalization true ("es".toList) ("Hello World".toList)
      ("Hello World".toList) ("  ".toList) (" ".toList) '"' '"').1
      (by decide) (by decide)
  · exact (make_key_normalization true ("es".toList) ("Hello World".toList)
      ("Hello World".toList) ("  ".toList) (" ".toList) '"' '"').2.1
      (by decide) (by decide) (by decide)
  · exact (make_key_normalization true ("es".toList) ("HELLO world".toList)
      ("hello WORLD".toList) ("  ".toList) (" ".toList) '"' '"').2.2.1
      (by decide)
  · exact (make_key_normalization true ("es".toList)
      ("Hello   World".toList) ("Hello World".toList) ("  ".toList)
      (" ".toList) '"' '"').2.2.2 (by decide)
